import Mathlib

/-!
Verification of the PL/SQL chunker (`split_plsql_into_blocks` in
`plsql_chunker_Version4.py`).

Strings are modelled as `List Char`.  The external statement splitter
(`sqlparse.split`) is out of scope per the design document: the segmenter is
modelled as a function of the ordered statement list it receives, and claims
about whole input texts are stated with hypotheses drawn from the splitter's
required interface.
-/

/-- ASCII whitespace as recognized by Python `str.strip` and `\s`
(space, tab, line feed, carriage return, vertical tab, form feed). -/
def isPySpace (c : Char) : Bool :=
  c == ' ' || c == '\t' || c == '\n' || c == '\r' || c == '\x0b' || c == '\x0c'

/-- Python `s.strip()`: remove leading and trailing whitespace. -/
def stripL (l : List Char) : List Char :=
  (((l.dropWhile isPySpace).reverse.dropWhile isPySpace)).reverse

/-- Remove every whitespace character (used to compare contents up to
whitespace differences). -/
def eraseWS (l : List Char) : List Char :=
  l.filter (fun c => !isPySpace c)

/-- Case-insensitive keyword test: does `s` start with the lowercase
keyword `kw` (compared after lowering `s`)?  Models a literal keyword at the
current regex position under `re.IGNORECASE`. -/
def startsWithCI : List Char → List Char → Bool
  | [], _ => true
  | _ :: _, [] => false
  | k :: ks, c :: cs => (c.toLower == k) && startsWithCI ks cs

/-- `block_start_pattern = re.compile(r'^\s*(CREATE|DECLARE|BEGIN)', re.IGNORECASE)`
applied with `.match`: optional leading whitespace then one of the keywords. -/
def blockStartMatch (s : List Char) : Bool :=
  let t := s.dropWhile isPySpace
  startsWithCI "create".toList t || startsWithCI "declare".toList t ||
    startsWithCI "begin".toList t

/-- Character class `[\w$]` of the closer regex: word character or dollar. -/
def isWordDollar (c : Char) : Bool :=
  c.isAlphanum || c == '_' || c == '$'

/-- After the literal `END`, the closer regex continues `\s*[\w$]*\s*;`
(the alternative `\s*;` is subsumed by the empty `[\w$]*`).  The three
character classes are pairwise disjoint and exclude `;`, so maximal munch
agrees with the backtracking regex. -/
def endTailMatch (s : List Char) : Bool :=
  match ((s.dropWhile isPySpace).dropWhile isWordDollar).dropWhile isPySpace with
  | ';' :: _ => true
  | _ => false

/-- Does `END\s*[\w$]*\s*;` (case-insensitive) match at the head of `s`? -/
def endTokenAt (s : List Char) : Bool :=
  match s with
  | e :: n :: d :: rest =>
      (e.toLower == 'e') && (n.toLower == 'n') && (d.toLower == 'd') &&
        endTailMatch rest
  | _ => false

/-- `block_end_pattern.search(stripped)`: the closer pattern matches at some
position of `s`. -/
def blockEndSearch (s : List Char) : Bool :=
  s.tails.any endTokenAt

/-- `plsql.replace('\r\n', '\n')` (leftmost, non-overlapping). -/
def normCRLF : List Char → List Char
  | [] => []
  | '\r' :: '\n' :: rest => '\n' :: normCRLF rest
  | c :: rest => c :: normCRLF rest

/-- Line-ending normalization: CRLF then bare CR become LF. -/
def normalizeNewlines (l : List Char) : List Char :=
  (normCRLF l).map (fun c => if c == '\r' then '\n' else c)

/-- Transient segmentation state: emitted blocks, current buffer, and the
`in_block` flag. -/
structure SegState where
  blocks : List (List Char)
  buffer : List Char
  inBlock : Bool
deriving DecidableEq, Repr

/-- Lines 22-26: on a block opener, flush a non-empty buffer (trimmed) and
set `in_block`. -/
def segOpen (st : SegState) (stripped : List Char) : SegState :=
  if blockStartMatch stripped then
    if st.buffer.isEmpty then
      { st with inBlock := true }
    else
      { blocks := st.blocks ++ [stripL st.buffer], buffer := [], inBlock := true }
  else st

/-- Line 27: append the raw statement to the buffer, with a line feed
separator when the buffer is non-empty. -/
def segAppend (st : SegState) (stmt : List Char) : SegState :=
  { st with buffer := if st.buffer.isEmpty then stmt else st.buffer ++ '\n' :: stmt }

/-- Lines 29-32: while inside a block, a closer match emits the trimmed
buffer and clears the flag. -/
def segClose (st : SegState) (stripped : List Char) : SegState :=
  if st.inBlock && blockEndSearch stripped then
    { blocks := st.blocks ++ [stripL st.buffer], buffer := [], inBlock := false }
  else st

/-- One loop iteration of the segmenter (lines 19-32). -/
def segStep (st : SegState) (stmt : List Char) : SegState :=
  segClose (segAppend (segOpen st (stripL stmt)) stmt) (stripL stmt)

/-- The segmentation loop, starting from the empty accumulator. -/
def segRun (stmts : List (List Char)) : SegState :=
  stmts.foldl segStep { blocks := [], buffer := [], inBlock := false }

/-- The Block Segmenter on an already-split statement list (lines 14-34):
run the loop, then flush a buffer whose trimmed form is non-empty. -/
def segmentStmts (stmts : List (List Char)) : List (List Char) :=
  if (stripL (segRun stmts).buffer).isEmpty then (segRun stmts).blocks
  else (segRun stmts).blocks ++ [stripL (segRun stmts).buffer]

/-- Python `blk.split(';')`: fragments between semicolons, empties kept. -/
def splitOnSemi : List Char → List (List Char)
  | [] => [[]]
  | c :: rest =>
      if c == ';' then [] :: splitOnSemi rest
      else
        match splitOnSemi rest with
        | f :: fs => (c :: f) :: fs
        | [] => [[c]]

/-- Lines 42-49: re-accumulate the fragments, re-appending a semicolon to
each, flushing (trimmed) whenever the sub-buffer reaches `maxSz`, and
emitting a trimmed non-empty remainder at the end. -/
def chunkLoop (maxSz : Nat) : List (List Char) → List Char → List (List Char)
  | [], temp => if (stripL temp).isEmpty then [] else [stripL temp]
  | s :: ss, temp =>
      let temp' := temp ++ s ++ [';']
      if maxSz ≤ temp'.length then stripL temp' :: chunkLoop maxSz ss []
      else chunkLoop maxSz ss temp'

/-- Lines 38-51, one block: oversize blocks go through the semicolon
re-chunking, others pass through unchanged. -/
def boundOne (maxSz : Nat) (blk : List Char) : List (List Char) :=
  if maxSz < blk.length then chunkLoop maxSz (splitOnSemi blk) [] else [blk]

/-- The Size Bounder (lines 37-52) over a block sequence. -/
def boundBlocks (blocks : List (List Char)) (maxSz : Nat) : List (List Char) :=
  match blocks with
  | [] => []
  | b :: bs => boundOne maxSz b ++ boundBlocks bs maxSz

/-- Re-join a block or statement sequence with a single line feed, the
separator the segmenter uses when accumulating (line 27). -/
def joinNL : List (List Char) → List Char
  | [] => []
  | s :: ss => s ++ (ss.map (fun t => '\n' :: t)).flatten

/-- The non-whitespace content an accumulator state carries: its emitted
blocks followed by its pending buffer, all whitespace erased. -/
def segContent (st : SegState) : List Char :=
  (st.blocks.map eraseWS).flatten ++ eraseWS st.buffer

/-- Accumulator sanity: the buffer is empty or trims to something non-empty,
and every emitted block trims to something non-empty. -/
def SegGood (st : SegState) : Prop :=
  (st.buffer = [] ∨ stripL st.buffer ≠ []) ∧ ∀ B ∈ st.blocks, stripL B ≠ []

lemma length_dropWhile_le (p : Char → Bool) (l : List Char) :
    (l.dropWhile p).length ≤ l.length := by
  induction l with
  | nil => simp
  | cons c t ih =>
    rw [List.dropWhile_cons]
    split
    · exact Nat.le_trans ih (Nat.le_succ _)
    · simp

lemma length_stripL_le (l : List Char) : (stripL l).length ≤ l.length := by
  unfold stripL
  rw [List.length_reverse]
  refine Nat.le_trans (length_dropWhile_le _ _) ?_
  rw [List.length_reverse]
  exact length_dropWhile_le _ _

lemma mem_of_mem_dropWhile {p : Char → Bool} {l : List Char} {x : Char}
    (h : x ∈ l.dropWhile p) : x ∈ l := by
  have h2 := List.takeWhile_append_dropWhile p l
  rw [← h2]
  exact List.mem_append_right _ h

lemma forall_dropWhile_iff (p : Char → Bool) (l : List Char) :
    (∀ x ∈ l.dropWhile p, p x = true) ↔ ∀ x ∈ l, p x = true := by
  constructor
  · intro h x hx
    have h2 := List.takeWhile_append_dropWhile p l
    rw [← h2, List.mem_append] at hx
    rcases hx with hx | hx
    · exact List.mem_takeWhile_imp hx
    · exact h x hx
  · intro h x hx
    exact h x (mem_of_mem_dropWhile hx)

lemma stripL_eq_nil_iff (l : List Char) :
    stripL l = [] ↔ ∀ c ∈ l, isPySpace c = true := by
  unfold stripL
  rw [List.reverse_eq_nil_iff, List.dropWhile_eq_nil_iff]
  constructor
  · intro h
    rw [← forall_dropWhile_iff isPySpace l]
    intro c hc
    exact h c (by rw [List.mem_reverse]; exact hc)
  · intro h c hc
    rw [List.mem_reverse] at hc
    exact h c (mem_of_mem_dropWhile hc)

lemma eraseWS_dropWhile (l : List Char) :
    eraseWS (l.dropWhile isPySpace) = eraseWS l := by
  induction l with
  | nil => rfl
  | cons c t ih =>
    rw [List.dropWhile_cons]
    by_cases h : isPySpace c = true
    · rw [if_pos h, ih]
      simp [eraseWS, List.filter_cons, h]
    · rw [if_neg h]

lemma eraseWS_reverse (l : List Char) : eraseWS l.reverse = (eraseWS l).reverse :=
  List.filter_reverse _ _

lemma eraseWS_stripL (l : List Char) : eraseWS (stripL l) = eraseWS l := by
  unfold stripL
  rw [eraseWS_reverse, eraseWS_dropWhile, eraseWS_reverse, eraseWS_dropWhile,
    List.reverse_reverse]

lemma eraseWS_append (a b : List Char) : eraseWS (a ++ b) = eraseWS a ++ eraseWS b :=
  List.filter_append _ _

lemma stripL_append_ne_nil (a b : List Char) (h : stripL a ≠ []) :
    stripL (a ++ b) ≠ [] := by
  rw [Ne, stripL_eq_nil_iff] at h ⊢
  intro hall
  exact h fun c hc => hall c (List.mem_append_left _ hc)

lemma dropWhile_append_last {p : Char → Bool} {c : Char} (hc : p c = false)
    (x : List Char) : ∃ y, List.dropWhile p (x ++ [c]) = y ++ [c] := by
  induction x with
  | nil => exact ⟨[], by simp [List.dropWhile_cons, hc]⟩
  | cons a t ih =>
    rw [List.cons_append, List.dropWhile_cons]
    split
    · exact ih
    · exact ⟨a :: t, by simp⟩

lemma stripL_append_semi (x : List Char) :
    ∃ y, stripL (x ++ [';']) = y ++ [';'] := by
  have hsemi : isPySpace ';' = false := by decide
  obtain ⟨y, hy⟩ := dropWhile_append_last hsemi x
  refine ⟨y, ?_⟩
  unfold stripL
  have hr : (y ++ [';']).reverse = ';' :: y.reverse := by simp
  rw [hy, hr, List.dropWhile_cons, if_neg (by rw [hsemi]; exact Bool.false_ne_true)]
  simp

lemma stripL_append_semi_ne_nil (x : List Char) : stripL (x ++ [';']) ≠ [] := by
  obtain ⟨y, hy⟩ := stripL_append_semi x
  rw [hy]
  simp

lemma dropWhile_head_false {p : Char → Bool} :
    ∀ {l : List Char} {c : Char} {cs : List Char},
      l.dropWhile p = c :: cs → p c = false := by
  intro l
  induction l with
  | nil => intro c cs h; simp at h
  | cons a t ih =>
    intro c cs h
    rw [List.dropWhile_cons] at h
    by_cases ha : p a = true
    · rw [if_pos ha] at h
      exact ih h
    · rw [if_neg ha] at h
      cases h
      exact Bool.eq_false_iff.mpr ha

lemma exists_nonspace_of_stripL_ne_nil {l : List Char} (h : stripL l ≠ []) :
    ∃ c ∈ stripL l, isPySpace c = false := by
  rcases hd : List.dropWhile isPySpace (l.dropWhile isPySpace).reverse with _ | ⟨c, cs⟩
  · exfalso
    apply h
    unfold stripL
    rw [hd]
    rfl
  · refine ⟨c, ?_, dropWhile_head_false hd⟩
    show c ∈ stripL l
    unfold stripL
    rw [hd, List.mem_reverse]
    exact List.mem_cons_self _ _

lemma stripL_stripL_ne_nil {l : List Char} (h : stripL l ≠ []) :
    stripL (stripL l) ≠ [] := by
  rw [Ne, stripL_eq_nil_iff]
  intro hall
  obtain ⟨c, hc, hcf⟩ := exists_nonspace_of_stripL_ne_nil h
  rw [hall c hc] at hcf
  cases hcf

lemma eraseWS_eq_nil {l : List Char} (h : ∀ c ∈ l, isPySpace c = true) :
    eraseWS l = [] := by
  induction l with
  | nil => rfl
  | cons c t ih =>
    have hc : isPySpace c = true := h c (List.mem_cons_self _ _)
    unfold eraseWS
    rw [List.filter_cons, if_neg (by rw [hc]; simp)]
    exact ih fun x hx => h x (List.mem_cons_of_mem _ hx)

lemma chunkLoop_oversize (N : Nat) :
    ∀ (ss : List (List Char)) (temp : List Char),
      temp = [] ∨ temp.length < N →
      ∀ B ∈ chunkLoop N ss temp, N < B.length →
      ∃ f ∈ ss, B.length ≤ N + f.length + 1 := by
  intro ss
  induction ss with
  | nil =>
    intro temp htemp B hB hlen
    unfold chunkLoop at hB
    split at hB
    · simp at hB
    · rw [List.mem_singleton] at hB
      subst hB
      have h1 : (stripL temp).length ≤ temp.length := length_stripL_le temp
      rcases htemp with h | h
      · subst h
        rw [show stripL ([] : List Char) = [] from rfl] at hlen
        simp only [List.length_nil] at hlen
        omega
      · omega
  | cons s ss ih =>
    intro temp htemp B hB hlen
    unfold chunkLoop at hB
    by_cases hflush : N ≤ (temp ++ s ++ [';']).length
    · rw [if_pos hflush] at hB
      rcases List.mem_cons.mp hB with hB | hB
      · subst hB
        refine ⟨s, List.mem_cons_self _ _, ?_⟩
        have h1 := length_stripL_le (temp ++ s ++ [';'])
        have h2 : (temp ++ s ++ [';']).length = temp.length + s.length + 1 := by
          simp only [List.length_append, List.length_cons, List.length_nil]
        rcases htemp with h | h
        · subst h
          simp only [List.length_nil] at h2
          omega
        · omega
      · obtain ⟨f, hf, hfb⟩ := ih [] (Or.inl rfl) B hB hlen
        exact ⟨f, List.mem_cons_of_mem _ hf, hfb⟩
    · rw [if_neg hflush] at hB
      have h2 : (temp ++ s ++ [';']).length < N := Nat.lt_of_not_le hflush
      obtain ⟨f, hf, hfb⟩ := ih (temp ++ s ++ [';']) (Or.inr h2) B hB hlen
      exact ⟨f, List.mem_cons_of_mem _ hf, hfb⟩

lemma mem_boundBlocks {bs : List (List Char)} {N : Nat} {B : List Char} :
    B ∈ boundBlocks bs N ↔ ∃ blk ∈ bs, B ∈ boundOne N blk := by
  induction bs with
  | nil => simp [boundBlocks]
  | cons b t ih =>
    unfold boundBlocks
    rw [List.mem_append, ih]
    constructor
    · rintro (h | ⟨blk, hblk, hB⟩)
      · exact ⟨b, List.mem_cons_self _ _, h⟩
      · exact ⟨blk, List.mem_cons_of_mem _ hblk, hB⟩
    · rintro ⟨blk, hblk, hB⟩
      rcases List.mem_cons.mp hblk with h | h
      · subst h; exact Or.inl hB
      · exact Or.inr ⟨blk, h, hB⟩

lemma chunkLoop_ends_semi (N : Nat) :
    ∀ (ss : List (List Char)) (temp : List Char),
      temp = [] ∨ (∃ y, temp = y ++ [';']) →
      ∀ B ∈ chunkLoop N ss temp, ∃ y, B = y ++ [';'] := by
  intro ss
  induction ss with
  | nil =>
    intro temp htemp B hB
    unfold chunkLoop at hB
    by_cases hemp : (stripL temp).isEmpty = true
    · rw [if_pos hemp] at hB
      simp at hB
    · rw [if_neg hemp] at hB
      rw [List.mem_singleton] at hB
      subst hB
      rcases htemp with h | ⟨y, hy⟩
      · subst h
        exact absurd rfl hemp
      · subst hy
        exact stripL_append_semi y
  | cons s ss ih =>
    intro temp htemp B hB
    unfold chunkLoop at hB
    have hshape : temp ++ s ++ [';'] = (temp ++ s) ++ [';'] := by
      simp [List.append_assoc]
    by_cases hflush : N ≤ (temp ++ s ++ [';']).length
    · rw [if_pos hflush] at hB
      rcases List.mem_cons.mp hB with hB | hB
      · subst hB
        rw [hshape]
        exact stripL_append_semi (temp ++ s)
      · exact ih [] (Or.inl rfl) B hB
    · rw [if_neg hflush] at hB
      exact ih (temp ++ s ++ [';']) (Or.inr ⟨temp ++ s, hshape⟩) B hB

lemma chunkLoop_strip_ne_nil (N : Nat) :
    ∀ (ss : List (List Char)) (temp : List Char),
      ∀ B ∈ chunkLoop N ss temp, stripL B ≠ [] := by
  intro ss
  induction ss with
  | nil =>
    intro temp B hB
    unfold chunkLoop at hB
    by_cases hemp : (stripL temp).isEmpty = true
    · rw [if_pos hemp] at hB
      simp at hB
    · rw [if_neg hemp] at hB
      rw [List.mem_singleton] at hB
      subst hB
      rw [List.isEmpty_iff] at hemp
      exact stripL_stripL_ne_nil hemp
  | cons s ss ih =>
    intro temp B hB
    unfold chunkLoop at hB
    by_cases hflush : N ≤ (temp ++ s ++ [';']).length
    · rw [if_pos hflush] at hB
      rcases List.mem_cons.mp hB with hB | hB
      · subst hB
        have h1 : temp ++ s ++ [';'] = (temp ++ s) ++ [';'] := by
          simp [List.append_assoc]
        rw [h1]
        exact stripL_stripL_ne_nil (stripL_append_semi_ne_nil (temp ++ s))
      · exact ih [] B hB
    · rw [if_neg hflush] at hB
      exact ih (temp ++ s ++ [';']) B hB

lemma boundBlocks_strip_ne_nil {bs : List (List Char)} {N : Nat}
    (h : ∀ blk ∈ bs, stripL blk ≠ []) :
    ∀ B ∈ boundBlocks bs N, stripL B ≠ [] := by
  intro B hB
  obtain ⟨blk, hblk, hBone⟩ := mem_boundBlocks.mp hB
  unfold boundOne at hBone
  split at hBone
  · exact chunkLoop_strip_ne_nil N _ _ B hBone
  · rw [List.mem_singleton] at hBone
    subst hBone
    exact h _ hblk

lemma boundBlocks_of_le (bs : List (List Char)) (N : Nat)
    (h : ∀ B ∈ bs, B.length ≤ N) : boundBlocks bs N = bs := by
  induction bs with
  | nil => rfl
  | cons b t ih =>
    unfold boundBlocks boundOne
    rw [if_neg (by
      have := h b (List.mem_cons_self _ _)
      omega)]
    rw [ih fun B hB => h B (List.mem_cons_of_mem _ hB)]
    rfl

lemma splitOnSemi_of_not_mem {blk : List Char} (h : ';' ∉ blk) :
    splitOnSemi blk = [blk] := by
  induction blk with
  | nil => rfl
  | cons c t ih =>
    have hc : ¬(c == ';') = true := by
      simp only [beq_iff_eq]
      intro hcc
      exact h (hcc ▸ List.mem_cons_self _ _)
    unfold splitOnSemi
    rw [if_neg hc, ih fun hm => h (List.mem_cons_of_mem _ hm)]

lemma dropWhile_eq_self_of_head {p : Char → Bool} {c : Char} {t : List Char}
    (hc : p c = false) : List.dropWhile p (c :: t) = c :: t := by
  rw [List.dropWhile_cons, if_neg (by rw [hc]; simp)]

lemma stripL_head_not_space {c : Char} {t : List Char}
    (h : stripL (c :: t) = c :: t) : isPySpace c = false := by
  by_contra hc
  have hc' : isPySpace c = true := by
    cases hcc : isPySpace c
    · exact absurd hcc hc
    · rfl
  have h1 : (stripL (c :: t)).length ≤ (List.dropWhile isPySpace (c :: t)).length := by
    unfold stripL
    rw [List.length_reverse]
    refine Nat.le_trans (length_dropWhile_le _ _) ?_
    rw [List.length_reverse]
  rw [List.dropWhile_cons, if_pos hc'] at h1
  have h2 := length_dropWhile_le isPySpace t
  rw [h] at h1
  simp at h1
  omega

lemma stripL_snoc_semi_of_stripped {blk : List Char} (h : stripL blk = blk) :
    stripL (blk ++ [';']) = blk ++ [';'] := by
  cases blk with
  | nil => decide
  | cons c t =>
    have hc : isPySpace c = false := stripL_head_not_space h
    have hsemi : isPySpace ';' = false := by decide
    unfold stripL
    rw [List.cons_append, dropWhile_eq_self_of_head hc]
    have hr : (c :: (t ++ [';'])).reverse = ';' :: (t.reverse ++ [c]) := by simp
    rw [hr, dropWhile_eq_self_of_head hsemi]
    simp


lemma blockEndSearch_nil_false : blockEndSearch [] = false := by decide

lemma stripL_ne_nil_of_endSearch {s : List Char}
    (h : blockEndSearch (stripL s) = true) : stripL s ≠ [] := by
  intro hc
  rw [hc] at h
  exact absurd h (by decide)

lemma segOpen_good {st : SegState} (stripped : List Char) (hst : SegGood st) :
    SegGood (segOpen st stripped) := by
  obtain ⟨hbuf, hblocks⟩ := hst
  unfold segOpen
  by_cases h : blockStartMatch stripped = true
  · rw [if_pos h]
    by_cases he : st.buffer.isEmpty = true
    · rw [if_pos he]
      exact ⟨hbuf, hblocks⟩
    · rw [if_neg he]
      refine ⟨Or.inl rfl, ?_⟩
      intro B hB
      rcases List.mem_append.mp hB with hB | hB
      · exact hblocks B hB
      · rw [List.mem_singleton] at hB
        subst hB
        rw [List.isEmpty_iff] at he
        rcases hbuf with h0 | h0
        · exact absurd h0 he
        · exact stripL_stripL_ne_nil h0
  · rw [if_neg h]
    exact ⟨hbuf, hblocks⟩

lemma segAppend_good {st : SegState} {stmt : List Char} (hst : SegGood st)
    (hstmt : stmt = [] ∨ stripL stmt ≠ []) : SegGood (segAppend st stmt) := by
  obtain ⟨hbuf, hblocks⟩ := hst
  unfold segAppend SegGood
  dsimp only
  refine ⟨?_, hblocks⟩
  by_cases he : st.buffer.isEmpty = true
  · rw [if_pos he]
    rcases hstmt with h | h
    · exact Or.inl h
    · have : stripL stmt = stripL stmt := rfl
      exact Or.inr (by
        intro hc
        exact h (by
          rw [stripL_eq_nil_iff] at hc ⊢
          exact hc))
  · rw [if_neg he]
    rw [List.isEmpty_iff] at he
    rcases hbuf with h | h
    · exact absurd h he
    · exact Or.inr (stripL_append_ne_nil _ _ h)

lemma segAppend_buffer_ne_nil {st : SegState} {stmt : List Char}
    (h : stmt ≠ []) : (segAppend st stmt).buffer ≠ [] := by
  unfold segAppend
  dsimp only
  by_cases he : st.buffer.isEmpty = true
  · rw [if_pos he]
    exact h
  · rw [if_neg he]
    simp

lemma segStep_good {st : SegState} {stmt : List Char} (hst : SegGood st)
    (hstmt : stmt = [] ∨ stripL stmt ≠ []) : SegGood (segStep st stmt) := by
  have hA : SegGood (segAppend (segOpen st (stripL stmt)) stmt) :=
    segAppend_good (segOpen_good _ hst) hstmt
  show SegGood (segClose (segAppend (segOpen st (stripL stmt)) stmt) (stripL stmt))
  obtain ⟨hbufA, hblocksA⟩ := hA
  unfold segClose
  by_cases hc :
      ((segAppend (segOpen st (stripL stmt)) stmt).inBlock
        && blockEndSearch (stripL stmt)) = true
  · rw [if_pos hc]
    refine ⟨Or.inl rfl, ?_⟩
    intro B hB
    rcases List.mem_append.mp hB with hB | hB
    · exact hblocksA B hB
    · rw [List.mem_singleton] at hB
      subst hB
      have hend : blockEndSearch (stripL stmt) = true :=
        (Bool.and_eq_true _ _).mp hc |>.2
      have hsne : stripL stmt ≠ [] := stripL_ne_nil_of_endSearch hend
      have hstne : stmt ≠ [] := by
        intro hcc
        subst hcc
        exact hsne rfl
      have hbufne : (segAppend (segOpen st (stripL stmt)) stmt).buffer ≠ [] :=
        segAppend_buffer_ne_nil hstne
      rcases hbufA with h0 | h0
      · exact absurd h0 hbufne
      · exact stripL_stripL_ne_nil h0
  · rw [if_neg hc]
    exact ⟨hbufA, hblocksA⟩

lemma foldl_segStep_good (stmts : List (List Char)) :
    ∀ st : SegState, SegGood st → (∀ s ∈ stmts, s = [] ∨ stripL s ≠ []) →
      SegGood (List.foldl segStep st stmts) := by
  induction stmts with
  | nil =>
    intro st hst _
    exact hst
  | cons s ss ih =>
    intro st hst h
    rw [List.foldl_cons]
    exact ih _ (segStep_good hst (h s (List.mem_cons_self _ _)))
      fun t ht => h t (List.mem_cons_of_mem _ ht)

lemma segRun_good (stmts : List (List Char))
    (h : ∀ s ∈ stmts, s = [] ∨ stripL s ≠ []) : SegGood (segRun stmts) :=
  foldl_segStep_good stmts _ ⟨Or.inl rfl, by simp⟩ h

lemma eraseWS_cons_nl (l : List Char) : eraseWS ('\n' :: l) = eraseWS l := by
  unfold eraseWS
  rw [List.filter_cons, if_neg (by decide)]

lemma segOpen_content (st : SegState) (stripped : List Char) :
    segContent (segOpen st stripped) = segContent st := by
  unfold segOpen segContent
  by_cases h : blockStartMatch stripped = true
  · rw [if_pos h]
    by_cases he : st.buffer.isEmpty = true
    · rw [if_pos he]
    · rw [if_neg he]
      dsimp only
      rw [List.map_append, List.flatten_append]
      simp only [List.map_cons, List.map_nil, List.flatten_cons, List.flatten_nil]
      rw [eraseWS_stripL]
      show (List.map eraseWS st.blocks).flatten ++ (eraseWS st.buffer ++ []) ++ eraseWS []
        = (List.map eraseWS st.blocks).flatten ++ eraseWS st.buffer
      simp [eraseWS]
  · rw [if_neg h]

lemma segAppend_content (st : SegState) (stmt : List Char) :
    segContent (segAppend st stmt) = segContent st ++ eraseWS stmt := by
  unfold segAppend segContent
  dsimp only
  by_cases he : st.buffer.isEmpty = true
  · rw [if_pos he]
    rw [List.isEmpty_iff] at he
    rw [he]
    show (List.map eraseWS st.blocks).flatten ++ eraseWS stmt
      = (List.map eraseWS st.blocks).flatten ++ eraseWS [] ++ eraseWS stmt
    simp [eraseWS]
  · rw [if_neg he]
    rw [eraseWS_append, eraseWS_cons_nl, List.append_assoc]

lemma segClose_content (st : SegState) (stripped : List Char) :
    segContent (segClose st stripped) = segContent st := by
  unfold segClose segContent
  by_cases h : (st.inBlock && blockEndSearch stripped) = true
  · rw [if_pos h]
    dsimp only
    rw [List.map_append, List.flatten_append]
    simp only [List.map_cons, List.map_nil, List.flatten_cons, List.flatten_nil]
    rw [eraseWS_stripL]
    show (List.map eraseWS st.blocks).flatten ++ (eraseWS st.buffer ++ []) ++ eraseWS []
      = (List.map eraseWS st.blocks).flatten ++ eraseWS st.buffer
    simp [eraseWS]
  · rw [if_neg h]

lemma segStep_content (st : SegState) (stmt : List Char) :
    segContent (segStep st stmt) = segContent st ++ eraseWS stmt := by
  show segContent (segClose (segAppend (segOpen st (stripL stmt)) stmt) (stripL stmt))
    = segContent st ++ eraseWS stmt
  rw [segClose_content, segAppend_content, segOpen_content]

lemma foldl_segStep_content (stmts : List (List Char)) :
    ∀ st : SegState,
      segContent (List.foldl segStep st stmts)
        = segContent st ++ (stmts.map eraseWS).flatten := by
  induction stmts with
  | nil =>
    intro st
    simp
  | cons s ss ih =>
    intro st
    rw [List.foldl_cons, ih, segStep_content]
    simp [List.append_assoc]

lemma segRun_content (stmts : List (List Char)) :
    segContent (segRun stmts) = (stmts.map eraseWS).flatten := by
  unfold segRun
  rw [foldl_segStep_content]
  rfl

lemma eraseWS_flatten_nl (ss : List (List Char)) :
    eraseWS ((ss.map (fun t => '\n' :: t)).flatten) = (ss.map eraseWS).flatten := by
  induction ss with
  | nil => rfl
  | cons t ts ih =>
    simp only [List.map_cons, List.flatten_cons]
    rw [eraseWS_append, eraseWS_cons_nl, ih]

lemma eraseWS_joinNL (l : List (List Char)) :
    eraseWS (joinNL l) = (l.map eraseWS).flatten := by
  cases l with
  | nil => rfl
  | cons s ss =>
    unfold joinNL
    rw [eraseWS_append, eraseWS_flatten_nl]
    simp only [List.map_cons, List.flatten_cons]

lemma blockStartMatch_nil_false : blockStartMatch [] = false := by decide

lemma segStep_whitespace {s : List Char} (blocks : List (List Char))
    (buf : List Char) (hs : stripL s = []) :
    segStep { blocks := blocks, buffer := buf, inBlock := false } s
      = { blocks := blocks,
          buffer := if buf.isEmpty then s else buf ++ '\n' :: s,
          inBlock := false } := by
  unfold segStep segOpen segAppend segClose
  simp [hs, blockStartMatch_nil_false]

lemma stripL_append_nl_nil {buf s : List Char} (hbuf : stripL buf = [])
    (hs : stripL s = []) : stripL (buf ++ '\n' :: s) = [] := by
  rw [stripL_eq_nil_iff] at hbuf hs ⊢
  intro c hc
  rcases List.mem_append.mp hc with hc | hc
  · exact hbuf c hc
  · rcases List.mem_cons.mp hc with hc | hc
    · subst hc
      decide
    · exact hs c hc

lemma foldl_segStep_whitespace (stmts : List (List Char)) :
    ∀ blocks buf, (∀ s ∈ stmts, stripL s = []) → stripL buf = [] →
      ∃ buf2, List.foldl segStep { blocks := blocks, buffer := buf, inBlock := false } stmts
          = { blocks := blocks, buffer := buf2, inBlock := false }
        ∧ stripL buf2 = [] := by
  induction stmts with
  | nil =>
    intro blocks buf _ hbuf
    exact ⟨buf, rfl, hbuf⟩
  | cons s ss ih =>
    intro blocks buf h hbuf
    rw [List.foldl_cons, segStep_whitespace blocks buf (h s (List.mem_cons_self _ _))]
    refine ih blocks _ (fun t ht => h t (List.mem_cons_of_mem _ ht)) ?_
    by_cases he : buf.isEmpty = true
    · rw [if_pos he]
      exact h s (List.mem_cons_self _ _)
    · rw [if_neg he]
      exact stripL_append_nl_nil hbuf (h s (List.mem_cons_self _ _))

lemma segStep_absorb {st : SegState} {s : List Char}
    (hbuf : st.buffer ≠ [])
    (hso : blockStartMatch (stripL s) = false)
    (hse : blockEndSearch (stripL s) = false) :
    segStep st s = { st with buffer := st.buffer ++ '\n' :: s } := by
  have he : st.buffer.isEmpty = false := by
    rw [List.isEmpty_eq_false]
    exact hbuf
  unfold segStep segOpen segAppend segClose
  simp [hso, hse, he]

lemma foldl_segStep_absorb (post : List (List Char)) :
    ∀ st : SegState, st.buffer ≠ [] →
      (∀ s ∈ post, blockStartMatch (stripL s) = false ∧ blockEndSearch (stripL s) = false) →
      List.foldl segStep st post
        = { st with buffer := st.buffer ++ (post.map (fun t => '\n' :: t)).flatten } := by
  induction post with
  | nil =>
    intro st hbuf _
    simp
  | cons s ss ih =>
    intro st hbuf h
    obtain ⟨hso, hse⟩ := h s (List.mem_cons_self _ _)
    rw [List.foldl_cons, segStep_absorb hbuf hso hse]
    rw [ih _ (by simp) (fun t ht => h t (List.mem_cons_of_mem _ ht))]
    simp only [List.map_cons, List.flatten_cons]
    rw [List.append_assoc]

/-- C1 counterexample: with `N = 10` and the single block `"abcdefgh;ijklmnop"`
(length 17), bounding emits the block `"abcdefgh;ijklmnop;"` of length 18 > 10
that contains an interior semicolon (so it is not a single semicolon-free
fragment) although every semicolon-free fragment of the source block has
length at most 10. -/
theorem plsql_C1_counterexample :
    boundBlocks ["abcdefgh;ijklmnop".toList] 10 = ["abcdefgh;ijklmnop;".toList] ∧
    10 < "abcdefgh;ijklmnop;".toList.length ∧
    ';' ∈ "abcdefgh;ijklmnop;".toList.dropLast ∧
    ∀ f ∈ splitOnSemi "abcdefgh;ijklmnop".toList, f.length ≤ 10 := by
  decide

/-- C1 (amended): an output block of `bound` that exceeds `N` need not be a
single oversized semicolon-free fragment; what holds is that it comes from an
oversized source block and exceeds `N` only by its final appended fragment:
its length is at most `N` plus the length of one semicolon-free fragment of
the source block plus one (the re-appended semicolon). -/
theorem plsql_C1_size_overshoot (blocks : List (List Char)) (N : Nat)
    (B : List Char) (hB : B ∈ boundBlocks blocks N) (hlen : N < B.length) :
    ∃ blk ∈ blocks, N < blk.length ∧
      ∃ f ∈ splitOnSemi blk, B.length ≤ N + f.length + 1 := by
  obtain ⟨blk, hblk, hBone⟩ := mem_boundBlocks.mp hB
  unfold boundOne at hBone
  split at hBone
  · rename_i hlt
    obtain ⟨f, hf, hfb⟩ :=
      chunkLoop_oversize N (splitOnSemi blk) [] (Or.inl rfl) B hBone hlen
    exact ⟨blk, hblk, hlt, f, hf, hfb⟩
  · rename_i hge
    rw [List.mem_singleton] at hBone
    subst hBone
    exact absurd hlen hge

theorem plsql_C1_witness :
    ∃ blk ∈ ["abcdefgh;ijklmnop".toList], 10 < blk.length ∧
      ∃ f ∈ splitOnSemi blk,
        "abcdefgh;ijklmnop;".toList.length ≤ 10 + f.length + 1 :=
  plsql_C1_size_overshoot ["abcdefgh;ijklmnop".toList] 10
    "abcdefgh;ijklmnop;".toList (by decide) (by decide)

/-- C2 counterexample: with `N = 10 ≥ 1`, bounding `"abcdefgh;ijklmnop"` once
gives `["abcdefgh;ijklmnop;"]`, and bounding that again splits further
(appending a stray `";"` block), so the Size Bounder is not idempotent. -/
theorem plsql_C2_counterexample :
    (1 : Nat) ≤ 10 ∧
    boundBlocks (boundBlocks ["abcdefgh;ijklmnop".toList] 10) 10
      ≠ boundBlocks ["abcdefgh;ijklmnop".toList] 10 := by
  decide

/-- C2 (amended): re-applying the Size Bounder changes nothing provided every
block of the first application's output is within the bound; idempotence fails
in general because an oversize output block ending in a semicolon gains a
stray `";"` block on re-application. -/
theorem plsql_C2_conditional_idempotent (blocks : List (List Char)) (N : Nat)
    (h : ∀ B ∈ boundBlocks blocks N, B.length ≤ N) :
    boundBlocks (boundBlocks blocks N) N = boundBlocks blocks N :=
  boundBlocks_of_le _ _ h

theorem plsql_C2_witness :
    boundBlocks (boundBlocks ["ab;cd".toList] 10) 10
      = boundBlocks ["ab;cd".toList] 10 :=
  plsql_C2_conditional_idempotent ["ab;cd".toList] 10 (by decide)

/-- C3: segmentation preserves content up to whitespace: re-joining the
output blocks with a line feed and erasing whitespace yields exactly the
whitespace-erased re-join of the input statements — nothing is dropped,
duplicated or reordered. -/
theorem plsql_C3_content_preservation (stmts : List (List Char)) :
    eraseWS (joinNL (segmentStmts stmts)) = eraseWS (joinNL stmts) := by
  rw [eraseWS_joinNL, eraseWS_joinNL]
  have h := segRun_content stmts
  unfold segContent at h
  unfold segmentStmts
  by_cases he : (stripL (segRun stmts).buffer).isEmpty = true
  · rw [if_pos he]
    rw [List.isEmpty_iff, stripL_eq_nil_iff] at he
    have hb : eraseWS (segRun stmts).buffer = [] := eraseWS_eq_nil he
    rw [hb, List.append_nil] at h
    exact h
  · rw [if_neg he]
    rw [List.map_append, List.flatten_append]
    simp only [List.map_cons, List.map_nil, List.flatten_cons, List.flatten_nil,
      List.append_nil]
    rw [eraseWS_stripL]
    exact h

/-- C4: when no statement is whitespace-only-but-non-empty (the upstream
splitter returns trimmed statements), no block of `segment` and no block of
`bound ∘ segment` is empty after trimming. -/
theorem plsql_C4_no_empty_blocks (stmts : List (List Char)) (N : Nat)
    (h : ∀ s ∈ stmts, s = [] ∨ stripL s ≠ []) :
    (∀ B ∈ segmentStmts stmts, stripL B ≠ []) ∧
    (∀ B ∈ boundBlocks (segmentStmts stmts) N, stripL B ≠ []) := by
  obtain ⟨hbuf, hblocks⟩ := segRun_good stmts h
  have h1 : ∀ B ∈ segmentStmts stmts, stripL B ≠ [] := by
    intro B hB
    unfold segmentStmts at hB
    by_cases he : (stripL (segRun stmts).buffer).isEmpty = true
    · rw [if_pos he] at hB
      exact hblocks B hB
    · rw [if_neg he] at hB
      rcases List.mem_append.mp hB with hB | hB
      · exact hblocks B hB
      · rw [List.mem_singleton] at hB
        subst hB
        rw [List.isEmpty_iff] at he
        exact stripL_stripL_ne_nil he
  exact ⟨h1, boundBlocks_strip_ne_nil h1⟩

theorem plsql_C4_witness :
    stripL "UPDATE t SET x=1;".toList ≠ [] :=
  (plsql_C4_no_empty_blocks ["UPDATE t SET x=1;".toList] 5 (by decide)).1
    "UPDATE t SET x=1;".toList (by decide)

lemma segOpenAppend_inBlock (st : SegState) (stmt : List Char) :
    (segAppend (segOpen st (stripL stmt)) stmt).inBlock
      = (st.inBlock || blockStartMatch (stripL stmt)) := by
  unfold segOpen segAppend
  by_cases h : blockStartMatch (stripL stmt) = true
  · by_cases he : st.buffer.isEmpty = true
    · simp [h, he]
    · simp [h, he]
  · rw [Bool.not_eq_true] at h
    simp [h]

/-- C5 counterexample: while the segmenter has no open block (after the
statement `"UPDATE t SET x=1"` the flag is false and no block has been
emitted), the next statement `"BEGIN NULL; END;"` — which contains a
semicolon and matches the END-closer pattern — finalizes two blocks, so
"when no block is open, a statement containing a semicolon or an END pattern
never finalizes a block" fails on the code. -/
theorem plsql_C5_counterexample :
    (segRun ["UPDATE t SET x=1".toList]).inBlock = false ∧
    (segRun ["UPDATE t SET x=1".toList]).blocks = [] ∧
    (';' ∈ "BEGIN NULL; END;".toList) ∧
    blockEndSearch (stripL "BEGIN NULL; END;".toList) = true ∧
    (segRun ["UPDATE t SET x=1".toList, "BEGIN NULL; END;".toList]).blocks
      = ["UPDATE t SET x=1".toList, "BEGIN NULL; END;".toList] := by
  decide

/-- C5 (amended): a statement finalizes the buffer as a closed block iff the
inside-block flag as updated by this same statement's opener recognition
(true if a block was already open or the statement is itself an opener) is
true and the trimmed statement matches the END pattern; a statement arriving
with no open block that is not an opener finalizes nothing, whatever
semicolons or END patterns it contains. -/
theorem plsql_C5_closer_characterization (st : SegState) (stmt : List Char) :
    (((st.inBlock || blockStartMatch (stripL stmt))
        && blockEndSearch (stripL stmt)) = true →
      segStep st stmt =
        { blocks := (segAppend (segOpen st (stripL stmt)) stmt).blocks ++
            [stripL (segAppend (segOpen st (stripL stmt)) stmt).buffer],
          buffer := [], inBlock := false }) ∧
    (((st.inBlock || blockStartMatch (stripL stmt))
        && blockEndSearch (stripL stmt)) = false →
      segStep st stmt = segAppend (segOpen st (stripL stmt)) stmt) ∧
    (st.inBlock = false → blockStartMatch (stripL stmt) = false →
      (segStep st stmt).blocks = st.blocks ∧ (segStep st stmt).inBlock = false) := by
  have hib := segOpenAppend_inBlock st stmt
  have hpos : ((st.inBlock || blockStartMatch (stripL stmt))
      && blockEndSearch (stripL stmt)) = true →
      segStep st stmt =
        { blocks := (segAppend (segOpen st (stripL stmt)) stmt).blocks ++
            [stripL (segAppend (segOpen st (stripL stmt)) stmt).buffer],
          buffer := [], inBlock := false } := by
    intro hc
    show segClose (segAppend (segOpen st (stripL stmt)) stmt) (stripL stmt) = _
    unfold segClose
    rw [hib, if_pos hc]
  have hneg : ((st.inBlock || blockStartMatch (stripL stmt))
      && blockEndSearch (stripL stmt)) = false →
      segStep st stmt = segAppend (segOpen st (stripL stmt)) stmt := by
    intro hc
    show segClose (segAppend (segOpen st (stripL stmt)) stmt) (stripL stmt) = _
    unfold segClose
    rw [hib, hc]
    simp
  refine ⟨hpos, hneg, ?_⟩
  intro h1 h2
  have hall : ((st.inBlock || blockStartMatch (stripL stmt))
      && blockEndSearch (stripL stmt)) = false := by
    rw [h1, h2]
    simp
  have hopen : segOpen st (stripL stmt) = st := by
    unfold segOpen
    rw [h2]
    simp
  rw [hneg hall, hopen]
  unfold segAppend
  exact ⟨rfl, h1⟩

theorem plsql_C5_witness :
    segStep { blocks := [], buffer := [], inBlock := true } "END;".toList
      = { blocks := (segAppend (segOpen { blocks := [], buffer := [], inBlock := true }
              (stripL "END;".toList)) "END;".toList).blocks ++
            [stripL (segAppend (segOpen { blocks := [], buffer := [], inBlock := true }
              (stripL "END;".toList)) "END;".toList).buffer],
          buffer := [], inBlock := false } :=
  (plsql_C5_closer_characterization
    { blocks := [], buffer := [], inBlock := true } "END;".toList).1 (by decide)

/-- C6: a statement whose trimmed form begins (case-insensitively) with
CREATE, DECLARE or BEGIN flushes a non-empty buffer as a trimmed block,
resets the buffer to the statement alone, and sets the inside-block flag;
consequently two consecutive CREATE...END; definitions segment into exactly
two blocks, each starting with CREATE. -/
theorem plsql_C6_opener_flush :
    (∀ (st : SegState) (stmt : List Char), blockStartMatch (stripL stmt) = true →
      segAppend (segOpen st (stripL stmt)) stmt =
        { blocks := st.blocks ++ (if st.buffer = [] then [] else [stripL st.buffer]),
          buffer := stmt, inBlock := true }) ∧
    segmentStmts ["CREATE PROCEDURE p1 AS BEGIN NULL; END;".toList,
        "CREATE PROCEDURE p2 AS BEGIN NULL; END;".toList]
      = ["CREATE PROCEDURE p1 AS BEGIN NULL; END;".toList,
         "CREATE PROCEDURE p2 AS BEGIN NULL; END;".toList] ∧
    startsWithCI "create".toList "CREATE PROCEDURE p1 AS BEGIN NULL; END;".toList = true ∧
    startsWithCI "create".toList "CREATE PROCEDURE p2 AS BEGIN NULL; END;".toList = true := by
  refine ⟨?_, by decide, by decide, by decide⟩
  intro st stmt h
  unfold segOpen segAppend
  rw [if_pos h]
  by_cases he : st.buffer.isEmpty = true
  · have he' : st.buffer = [] := List.isEmpty_iff.mp he
    rw [if_pos he]
    simp [he, he']
  · have he' : ¬(st.buffer = []) := fun hc => he (by rw [hc]; rfl)
    rw [if_neg he]
    simp [he']

theorem plsql_C6_witness :
    segAppend (segOpen ⟨[], "UPDATE t SET x=1".toList, false⟩
        (stripL "BEGIN".toList)) "BEGIN".toList
      = { blocks := ([] : List (List Char)) ++
            (if ("UPDATE t SET x=1".toList : List Char) = [] then []
              else [stripL "UPDATE t SET x=1".toList]),
          buffer := "BEGIN".toList, inBlock := true } :=
  plsql_C6_opener_flush.1 ⟨[], "UPDATE t SET x=1".toList, false⟩
    "BEGIN".toList (by decide)

/-- C7: a single trimmed block of length 5000 with no semicolon, bounded at
1200, yields exactly one output block — the block with a semicolon appended —
of length 5001. -/
theorem plsql_C7_degenerate_oversize (blk : List Char) (h1 : blk.length = 5000)
    (h2 : ';' ∉ blk) (h3 : stripL blk = blk) :
    boundBlocks [blk] 1200 = [blk ++ [';']] ∧ (blk ++ [';']).length = 5001 := by
  have hlen : (blk ++ [';']).length = 5001 := by
    rw [List.length_append, h1]
    rfl
  refine ⟨?_, hlen⟩
  unfold boundBlocks boundOne
  rw [if_pos (by omega)]
  rw [splitOnSemi_of_not_mem h2]
  unfold chunkLoop
  have hnil : ([] : List Char) ++ blk ++ [';'] = blk ++ [';'] := by simp
  rw [hnil, if_pos (by omega)]
  rw [stripL_snoc_semi_of_stripped h3]
  rfl

lemma replicate_a_nospace : ∀ c ∈ List.replicate 5000 'a', isPySpace c = false := by
  intro c hc
  rw [List.eq_of_mem_replicate hc]
  decide

lemma dropWhile_eq_self_of_all {p : Char → Bool} {l : List Char}
    (h : ∀ c ∈ l, p c = false) : l.dropWhile p = l := by
  cases l with
  | nil => rfl
  | cons c t =>
    rw [List.dropWhile_cons,
      if_neg (by rw [h c (List.mem_cons_self _ _)]; exact Bool.false_ne_true)]

lemma stripL_of_all_nonspace {l : List Char}
    (h : ∀ c ∈ l, isPySpace c = false) : stripL l = l := by
  unfold stripL
  rw [dropWhile_eq_self_of_all h,
    dropWhile_eq_self_of_all (fun c hc => h c (List.mem_reverse.mp hc)),
    List.reverse_reverse]

theorem plsql_C7_witness :
    boundBlocks [List.replicate 5000 'a'] 1200
        = [List.replicate 5000 'a' ++ [';']] ∧
      (List.replicate 5000 'a' ++ [';']).length = 5001 :=
  plsql_C7_degenerate_oversize (List.replicate 5000 'a')
    (by rw [List.length_replicate])
    (by
      intro hc
      exact absurd (List.eq_of_mem_replicate hc) (by decide))
    (stripL_of_all_nonspace replicate_a_nospace)

/-- C8: empty input and whitespace-only input (every statement the splitter
returns trims to nothing) segment to the empty block sequence. -/
theorem plsql_C8_whitespace_empty (stmts : List (List Char))
    (h : ∀ s ∈ stmts, stripL s = []) : segmentStmts stmts = [] := by
  obtain ⟨buf2, hrun, hbuf2⟩ :=
    foldl_segStep_whitespace stmts [] [] h rfl
  unfold segmentStmts segRun
  rw [hrun]
  dsimp only
  rw [hbuf2]
  simp

theorem plsql_C8_witness : segmentStmts [" ".toList, ['\n', '\t'], []] = [] :=
  plsql_C8_whitespace_empty [" ".toList, ['\n', '\t'], []] (by decide)

/-- C9: an input that opens a block (an opener statement `o`, not itself a
closer) and never afterwards matches the closing pattern still produces a
result (segmentation is total by construction), and the opened block's
accumulated partial content — `o` and the following statements joined by
line feeds, trimmed — is the final block of the output. -/
theorem plsql_C9_unclosed_block (pre post : List (List Char)) (o : List Char)
    (ho : blockStartMatch (stripL o) = true)
    (hoe : blockEndSearch (stripL o) = false)
    (hpost : ∀ s ∈ post,
      blockStartMatch (stripL s) = false ∧ blockEndSearch (stripL s) = false) :
    (segmentStmts (pre ++ o :: post)).getLast?
      = some (stripL (joinNL (o :: post))) := by
  have hone : stripL o ≠ [] := by
    intro hc
    rw [hc, blockStartMatch_nil_false] at ho
    exact absurd ho (by decide)
  have honil : o ≠ [] := fun hc => hone (by rw [hc]; rfl)
  have hob : (segOpen (segRun pre) (stripL o)).buffer = [] := by
    unfold segOpen
    rw [if_pos ho]
    by_cases he : (segRun pre).buffer.isEmpty = true
    · rw [if_pos he]
      exact List.isEmpty_iff.mp he
    · rw [if_neg he]
  have hstep : segStep (segRun pre) o
      = { blocks := (segOpen (segRun pre) (stripL o)).blocks,
          buffer := o, inBlock := true } := by
    have hoin : (segOpen (segRun pre) (stripL o)).inBlock = true := by
      unfold segOpen
      rw [if_pos ho]
      by_cases he : (segRun pre).buffer.isEmpty = true
      · rw [if_pos he]
      · rw [if_neg he]
    show segClose (segAppend (segOpen (segRun pre) (stripL o)) o) (stripL o) = _
    unfold segAppend segClose
    rw [hob]
    simp [hoe, hoin]
  have habs := foldl_segStep_absorb post
    { blocks := (segOpen (segRun pre) (stripL o)).blocks, buffer := o, inBlock := true }
    honil hpost
  have hjoin : o ++ (post.map (fun t => '\n' :: t)).flatten = joinNL (o :: post) := rfl
  have hrun : segRun (pre ++ o :: post)
      = { blocks := (segOpen (segRun pre) (stripL o)).blocks,
          buffer := joinNL (o :: post), inBlock := true } := by
    unfold segRun
    rw [List.foldl_append, List.foldl_cons]
    show List.foldl segStep (segStep (segRun pre) o) post = _
    rw [hstep, habs]
    dsimp only
    rw [hjoin]
    rfl
  have hne : stripL (joinNL (o :: post)) ≠ [] := by
    show stripL (o ++ (post.map (fun t => '\n' :: t)).flatten) ≠ []
    exact stripL_append_ne_nil _ _ hone
  unfold segmentStmts
  rw [hrun]
  dsimp only
  rw [if_neg (by rw [List.isEmpty_iff]; exact hne)]
  rw [List.getLast?_concat]

theorem plsql_C9_witness :
    (segmentStmts ["BEGIN".toList, "x := 1".toList]).getLast?
      = some (stripL (joinNL ["BEGIN".toList, "x := 1".toList])) :=
  plsql_C9_unclosed_block [] ["x := 1".toList] "BEGIN".toList
    (by decide) (by decide) (by decide)

/-- C10: every block the Size Bounder's splitting path emits (from a block
whose length exceeds the bound) ends with a semicolon, and on some inputs the
final such block is exactly the one-character string ";" carrying no content
from the original block. -/
theorem plsql_C10_split_blocks_end_semi :
    (∀ (N : Nat) (blk : List Char), N < blk.length →
      ∀ B ∈ boundOne N blk, ∃ y, B = y ++ [';']) ∧
    10 < "abcdefgh;ijklmnop;".toList.length ∧
    (boundBlocks ["abcdefgh;ijklmnop;".toList] 10).getLast? = some [';'] := by
  refine ⟨?_, by decide, by decide⟩
  intro N blk hlt B hB
  unfold boundOne at hB
  rw [if_pos hlt] at hB
  exact chunkLoop_ends_semi N (splitOnSemi blk) [] (Or.inl rfl) B hB

theorem plsql_C10_witness :
    ∃ y, "abcdefgh;ijklmnop;".toList = y ++ [';'] :=
  plsql_C10_split_blocks_end_semi.1 10 "abcdefgh;ijklmnop".toList (by decide)
    "abcdefgh;ijklmnop;".toList (by decide)
